import Mathlib

/-!
Verification of the widgets repository: a hashed timing wheel
(package timeWheel) and an elastic goroutine worker pool
(package GoroutinePool), shallowly embedded in Lean 4.

Machine integers are modelled as Nat/Int; Go's truncating integer
division and remainder on int are Int.tdiv and Int.tmod.  Go maps are
total functions into Option.  Operations that can panic at runtime
(out-of-range slice indexing) return Option, with none for the panic.
-/

namespace Widgets

/-! ## GoroutinePool: Worker (worker.go)

A task body is modelled by the outcomes of its successive attempts:
attempt i returns a pair (result, err), with err = none for success.
Results and errors are abstract values (Nat is enough for the claims).
-/

/-- Embedding of Worker.handleResult (worker.go:93-99).
The Go code is an if / else-if chain on nil-ness of the two callbacks;
we track only whether each callback is configured (non-nil) and return
the pair (error-callback invoked?, result-callback invoked?). -/
def handleResult (err : Option Nat) (errCallbackSet resultCallbackSet : Bool) :
    Bool × Bool :=
  if err.isSome && errCallbackSet then (true, false)
  else if resultCallbackSet then (false, true)
  else (false, false)

/-- Embedding of the loop body of Worker.executeTask (worker.go:34-50),
started at attempt index i with n = retryCount - i iterations left.
When n = 0 we are at i = retryCount and the Go code returns the attempt
outcome unconditionally; otherwise it returns on success (err == nil)
and retries on failure. -/
def executeTaskAux (attempt : Nat → Nat × Option Nat) (i : Nat) :
    Nat → Nat × Option Nat
  | 0 => attempt i
  | n + 1 =>
    let r := attempt i
    if r.2.isNone then r else executeTaskAux attempt (i + 1) n

/-- Embedding of Worker.executeTask (worker.go:34-50): run attempts
0, 1, ... up to retryCount, stopping at the first success. -/
def executeTask (attempt : Nat → Nat × Option Nat) (retryCount : Nat) :
    Nat × Option Nat :=
  executeTaskAux attempt 0 retryCount

/-- Number of attempts actually performed by Worker.executeTask,
counted alongside executeTaskAux. -/
def numAttemptsAux (attempt : Nat → Nat × Option Nat) (i : Nat) : Nat → Nat
  | 0 => 1
  | n + 1 => if ((attempt i).2).isNone then 1 else 1 + numAttemptsAux attempt (i + 1) n

/-- Number of attempts performed for a task with the given retryCount. -/
def numAttempts (attempt : Nat → Nat × Option Nat) (retryCount : Nat) : Nat :=
  numAttemptsAux attempt 0 retryCount

/-- One task processed end to end by a worker (worker.go:25-26):
executeTask followed by handleResult. -/
def processTask (attempt : Nat → Nat × Option Nat) (retryCount : Nat)
    (errCallbackSet resultCallbackSet : Bool) : Bool × Bool :=
  handleResult (executeTask attempt retryCount).2 errCallbackSet resultCallbackSet

lemma numAttemptsAux_le (attempt : Nat → Nat × Option Nat) :
    ∀ n i, numAttemptsAux attempt i n ≤ n + 1 := by
  intro n
  induction n with
  | zero => intro i; simp [numAttemptsAux]
  | succ m ih =>
    intro i
    simp only [numAttemptsAux]
    split
    · omega
    · have := ih (i + 1)
      omega

lemma executeTaskAux_first_success (attempt : Nat → Nat × Option Nat) :
    ∀ k n i, k ≤ n →
      (∀ j, j < k → ((attempt (i + j)).2).isSome = true) →
      (attempt (i + k)).2 = none →
      executeTaskAux attempt i n = attempt (i + k) ∧
        numAttemptsAux attempt i n = k + 1 := by
  intro k
  induction k with
  | zero =>
    intro n i _ _ hsucc
    cases n with
    | zero => simp [executeTaskAux, numAttemptsAux]
    | succ m =>
      simp only [executeTaskAux, numAttemptsAux]
      simp only [Nat.add_zero] at hsucc
      simp [hsucc]
  | succ k ih =>
    intro n i hkn hfail hsucc
    cases n with
    | zero => omega
    | succ m =>
      have h0 : ((attempt i).2).isSome = true := by
        have := hfail 0 (Nat.succ_pos k)
        simpa using this
      have hnone : ((attempt i).2).isNone = false := by
        cases h : (attempt i).2 with
        | none => rw [h] at h0; simp at h0
        | some v => simp
      simp only [executeTaskAux, numAttemptsAux, hnone, if_false, Bool.false_eq_true]
      have hrec := ih m (i + 1) (by omega)
        (fun j hj => by
          have := hfail (j + 1) (by omega)
          simpa [Nat.add_assoc, Nat.add_comm 1 j] using this)
        (by
          have : i + 1 + k = i + (k + 1) := by omega
          rw [this]; exact hsucc)
      have harg : i + 1 + k = i + (k + 1) := by omega
      rw [harg] at hrec
      exact ⟨hrec.1, by omega⟩

/-- C5: the worker attempts each task at most retryCount + 1 times and
stops at the first attempt that returns no error; a task failing the
first retryCount attempts and succeeding on the final one yields one
result-callback invocation (when configured) and no error-callback
invocation. -/
theorem C5_retry_semantics (attempt : Nat → Nat × Option Nat) (retryCount : Nat)
    (errCallbackSet resultCallbackSet : Bool) :
    numAttempts attempt retryCount ≤ retryCount + 1 ∧
    (∀ k, k ≤ retryCount →
      (∀ j, j < k → ((attempt j).2).isSome = true) →
      (attempt k).2 = none →
      executeTask attempt retryCount = attempt k ∧
        numAttempts attempt retryCount = k + 1) ∧
    ((∀ j, j < retryCount → ((attempt j).2).isSome = true) →
      (attempt retryCount).2 = none →
      processTask attempt retryCount errCallbackSet resultCallbackSet =
        (false, resultCallbackSet)) := by
  refine ⟨numAttemptsAux_le attempt retryCount 0, ?_, ?_⟩
  · intro k hk hfail hsucc
    have h := executeTaskAux_first_success attempt k retryCount 0 hk
      (fun j hj => by simpa using hfail j hj)
      (by simpa using hsucc)
    rw [Nat.zero_add] at h
    exact ⟨h.1, h.2⟩
  · intro hfail hsucc
    have h := executeTaskAux_first_success attempt retryCount retryCount 0 le_rfl
      (fun j hj => by simpa using hfail j hj)
      (by simpa using hsucc)
    unfold processTask
    unfold executeTask
    rw [h.1]
    simp only [Nat.zero_add] at *
    rw [hsucc]
    cases resultCallbackSet <;> simp [handleResult]

/-- Witness for C5 at a concrete task: fails attempts 0 and 1, succeeds
on attempt 2 with retryCount = 2. -/
theorem C5_retry_semantics_witness :
    executeTask (fun i => (i, if i < 2 then some 7 else none)) 2 = (2, none) ∧
      processTask (fun i => (i, if i < 2 then some 7 else none)) 2 true true =
        (false, true) := by
  refine ⟨?_, ?_⟩
  · have h := (C5_retry_semantics (fun i => (i, if i < 2 then some 7 else none)) 2
      true true).2.1 2 (by decide) (by decide) (by decide)
    rw [h.1]; decide
  · exact (C5_retry_semantics (fun i => (i, if i < 2 then some 7 else none)) 2
      true true).2.2 (by decide) (by decide)

/-- C1 counterexample: a task whose final attempt ends in an error,
with no error callback configured but a result callback configured,
does invoke the result callback — refuting the claimed exclusivity
for every combination of configured/unconfigured callbacks. -/
theorem C1_exclusivity_counterexample :
    (handleResult (some 7) false true).2 = true := by decide

/-- C1 amended: if the final attempt ends in error and the error
callback is configured, the error callback is invoked and the result
callback is not; if the final attempt succeeds, the result callback is
invoked exactly when configured (and the error callback is not); but
if the final attempt ends in error with no error callback configured,
the result callback (when configured) is invoked for that task.  The
two callbacks are never both invoked for one task. -/
theorem C1_callback_dispatch (err : Option Nat) (errCallbackSet resultCallbackSet : Bool) :
    (err.isSome = true → errCallbackSet = true →
      handleResult err errCallbackSet resultCallbackSet = (true, false)) ∧
    (err = none →
      handleResult err errCallbackSet resultCallbackSet = (false, resultCallbackSet)) ∧
    (err.isSome = true → errCallbackSet = false →
      handleResult err errCallbackSet resultCallbackSet = (false, resultCallbackSet)) ∧
    ¬((handleResult err errCallbackSet resultCallbackSet).1 = true ∧
      (handleResult err errCallbackSet resultCallbackSet).2 = true) := by
  refine ⟨?_, ?_, ?_, ?_⟩
  · intro h1 h2; simp [handleResult, h1, h2]
  · intro h; cases resultCallbackSet <;> simp [handleResult, h]
  · intro h1 h2; cases resultCallbackSet <;> simp [handleResult, h1, h2]
  · cases err <;> cases errCallbackSet <;> cases resultCallbackSet <;>
      simp [handleResult]

/-- Witness for C1 amended at a concrete errored task with the error
callback configured. -/
theorem C1_callback_dispatch_witness :
    handleResult (some 3) true true = (true, false) :=
  (C1_callback_dispatch (some 3) true true).1 (by decide) (by decide)

/-! ## GoroutinePool: pool construction and auto-scaling

Workers are identified by their index in the pool's workers slice; the
workers list stores each worker's creation index, the workerStack the
LIFO stack of idle indices.  Durations are in nanoseconds. -/

/-- Configuration fields of the GoroutinePool struct that the options
in option.go can set (option.go:12-52, NewGoroutinePool defaults at
part_001:45-61).  The errCallback field of the struct has no
corresponding option in option.go, so it is not part of the
configuration surface. -/
structure PoolConfig where
  maxWorkers : Nat
  minWorkers : Nat
  taskQueueSize : Nat
  retryCount : Nat
  timeout : Nat
  resultCallbackSet : Bool
  adjustInterval : Nat
  deriving Repr, DecidableEq

/-- The option constructors of option.go. -/
inductive PoolOpt
  | withLock
  | withMinWorkers (n : Nat)
  | withTimeout (d : Nat)
  | withResultCallBack
  | withRetryCount (n : Nat)
  | withTaskQueueSize (n : Nat)
  deriving Repr, DecidableEq

/-- Effect of one option on the pool configuration (option.go). -/
def applyOption (cfg : PoolConfig) : PoolOpt → PoolConfig
  | .withLock => cfg
  | .withMinWorkers n => { cfg with minWorkers := n }
  | .withTimeout d => { cfg with timeout := d }
  | .withResultCallBack => { cfg with resultCallbackSet := true }
  | .withRetryCount n => { cfg with retryCount := n }
  | .withTaskQueueSize n => { cfg with taskQueueSize := n }

/-- Configuration produced by NewGoroutinePool (part_001:45-66):
defaults, then the options applied in order. -/
def newGoroutinePoolConfig (maxWorkers : Nat) (options : List PoolOpt) : PoolConfig :=
  options.foldl applyOption
    { maxWorkers := maxWorkers, minWorkers := maxWorkers, taskQueueSize := 1000000,
      retryCount := 0, timeout := 0, resultCallbackSet := false,
      adjustInterval := 1000000000 }

/-- True when the option is WithTaskQueueSize. -/
def setsTaskQueueSize : PoolOpt → Bool
  | .withTaskQueueSize _ => true
  | _ => false

/-- The worker list and idle-index stack of a pool (part_001:29-30).
Each entry of workers is that worker's creation index, so initially
workers = range minWorkers with workerStack[i] = i (part_001:74-80). -/
structure PoolScaleState where
  workers : List Nat
  workerStack : List Nat
  deriving Repr, DecidableEq

/-- Worker list and idle stack right after NewGoroutinePool
(part_001:67-80). -/
def initPoolScaleState (cfg : PoolConfig) : PoolScaleState :=
  { workers := List.range cfg.minWorkers, workerStack := List.range cfg.minWorkers }

/-- The scale-up loop of adjustWorkers (part_001:176-181): n times,
append a new worker and push its index (the previous length of the
workers slice) onto the idle stack. -/
def addWorkersLoop : Nat → PoolScaleState → PoolScaleState
  | 0, s => s
  | n + 1, s =>
    addWorkersLoop n
      { workers := s.workers ++ [s.workers.length],
        workerStack := s.workerStack ++ [s.workers.length] }

/-- One iteration of the auto-scaling loop of adjustWorkers
(part_001:160-199), given the observed pending-queue length.
Scale up doubles the worker count capped at maxWorkers; scale down
(queue empty, all workers idle, count above minWorkers) sorts the idle
indices ascending and truncates both slices by
(workers - minWorkers + 1) / 2. -/
def adjustStep (cfg : PoolConfig) (s : PoolScaleState) (queueLen : Nat) : PoolScaleState :=
  if queueLen > s.workers.length * 3 / 4 ∧ s.workers.length < cfg.maxWorkers then
    addWorkersLoop (min (s.workers.length * 2) cfg.maxWorkers - s.workers.length) s
  else if queueLen = 0 ∧ s.workerStack.length = s.workers.length ∧
      s.workers.length > cfg.minWorkers then
    { workers := s.workers.take
        (s.workers.length - (s.workers.length - cfg.minWorkers + 1) / 2),
      workerStack := (s.workerStack.mergeSort (fun a b => a ≤ b)).take
        (s.workerStack.length - (s.workers.length - cfg.minWorkers + 1) / 2) }
  else s

/-- Events that touch the worker list or idle stack between scaling
iterations: a scaling iteration with some observed queue length, a
dispatch popping the most recently idled worker (part_001:144-150), or
a worker pushing its index back (part_001:152-158). -/
inductive PoolEvent
  | adjust (queueLen : Nat)
  | popWorker
  | pushWorker (i : Nat)
  deriving Repr, DecidableEq

/-- Effect of one pool event on the worker list and idle stack. -/
def poolStep (cfg : PoolConfig) (s : PoolScaleState) : PoolEvent → PoolScaleState
  | .adjust q => adjustStep cfg s q
  | .popWorker => { s with workerStack := s.workerStack.dropLast }
  | .pushWorker i => { s with workerStack := s.workerStack ++ [i] }

/-- Pool worker/stack state after a sequence of events, starting from
the state NewGoroutinePool builds. -/
def runPool (cfg : PoolConfig) (events : List PoolEvent) : PoolScaleState :=
  events.foldl (poolStep cfg) (initPoolScaleState cfg)

lemma addWorkersLoop_workers_length :
    ∀ n s, (addWorkersLoop n s).workers.length = s.workers.length + n := by
  intro n
  induction n with
  | zero => intro s; simp [addWorkersLoop]
  | succ m ih =>
    intro s
    simp only [addWorkersLoop]
    rw [ih]
    simp
    omega

lemma adjustStep_workers_bounds (cfg : PoolConfig) (s : PoolScaleState) (q : Nat)
    (_hmm : cfg.minWorkers ≤ cfg.maxWorkers)
    (hlo : cfg.minWorkers ≤ s.workers.length)
    (hhi : s.workers.length ≤ cfg.maxWorkers) :
    cfg.minWorkers ≤ (adjustStep cfg s q).workers.length ∧
      (adjustStep cfg s q).workers.length ≤ cfg.maxWorkers := by
  unfold adjustStep
  split
  · rename_i hup
    rw [addWorkersLoop_workers_length]
    omega
  · split
    · rename_i hdown
      simp only [List.length_take]
      omega
    · exact ⟨hlo, hhi⟩

lemma poolStep_workers_bounds (cfg : PoolConfig) (s : PoolScaleState) (e : PoolEvent)
    (hmm : cfg.minWorkers ≤ cfg.maxWorkers)
    (hlo : cfg.minWorkers ≤ s.workers.length)
    (hhi : s.workers.length ≤ cfg.maxWorkers) :
    cfg.minWorkers ≤ (poolStep cfg s e).workers.length ∧
      (poolStep cfg s e).workers.length ≤ cfg.maxWorkers := by
  cases e with
  | adjust q => exact adjustStep_workers_bounds cfg s q hmm hlo hhi
  | popWorker => exact ⟨hlo, hhi⟩
  | pushWorker i => exact ⟨hlo, hhi⟩

lemma foldl_poolStep_workers_bounds (cfg : PoolConfig)
    (hmm : cfg.minWorkers ≤ cfg.maxWorkers) :
    ∀ (events : List PoolEvent) (s : PoolScaleState),
      cfg.minWorkers ≤ s.workers.length → s.workers.length ≤ cfg.maxWorkers →
      cfg.minWorkers ≤ (events.foldl (poolStep cfg) s).workers.length ∧
        (events.foldl (poolStep cfg) s).workers.length ≤ cfg.maxWorkers := by
  intro events
  induction events with
  | nil => intro s hlo hhi; exact ⟨hlo, hhi⟩
  | cons e rest ih =>
    intro s hlo hhi
    have h := poolStep_workers_bounds cfg s e hmm hlo hhi
    exact ih (poolStep cfg s e) h.1 h.2

/-- C6 counterexample: a pool created with maxWorkers = 1 and the
option WithMinWorkers 2 starts with 2 workers, exceeding maxWorkers —
so the claimed bound does not hold for every combination of options. -/
theorem C6_bounds_counterexample :
    ¬((runPool (newGoroutinePoolConfig 1 [PoolOpt.withMinWorkers 2]) []).workers.length ≤
      (newGoroutinePoolConfig 1 [PoolOpt.withMinWorkers 2]).maxWorkers) := by
  decide

/-- C6 amended: for every pool whose configuration satisfies
minWorkers ≤ maxWorkers, after any sequence of scaling iterations,
dispatch pops and worker pushes, the worker count stays within
[minWorkers, maxWorkers]. -/
theorem C6_worker_count_bounds (maxWorkers : Nat) (options : List PoolOpt)
    (events : List PoolEvent)
    (hmm : (newGoroutinePoolConfig maxWorkers options).minWorkers ≤
      (newGoroutinePoolConfig maxWorkers options).maxWorkers) :
    (newGoroutinePoolConfig maxWorkers options).minWorkers ≤
      (runPool (newGoroutinePoolConfig maxWorkers options) events).workers.length ∧
    (runPool (newGoroutinePoolConfig maxWorkers options) events).workers.length ≤
      (newGoroutinePoolConfig maxWorkers options).maxWorkers := by
  apply foldl_poolStep_workers_bounds _ hmm
  · simp [initPoolScaleState]
  · simp [initPoolScaleState]
    exact hmm

/-- Witness for C6 amended: pool with maxWorkers = 4, minWorkers = 2,
observed under a scale-up trigger and then a scale-down trigger. -/
theorem C6_worker_count_bounds_witness :
    (newGoroutinePoolConfig 4 [PoolOpt.withMinWorkers 2]).minWorkers ≤
      (runPool (newGoroutinePoolConfig 4 [PoolOpt.withMinWorkers 2])
        [PoolEvent.adjust 5, PoolEvent.adjust 0]).workers.length ∧
    (runPool (newGoroutinePoolConfig 4 [PoolOpt.withMinWorkers 2])
        [PoolEvent.adjust 5, PoolEvent.adjust 0]).workers.length ≤
      (newGoroutinePoolConfig 4 [PoolOpt.withMinWorkers 2]).maxWorkers :=
  C6_worker_count_bounds 4 [PoolOpt.withMinWorkers 2]
    [PoolEvent.adjust 5, PoolEvent.adjust 0] (by decide)

lemma mergeSort_perm_range {l : List Nat} {n : Nat}
    (h : l.Perm (List.range n)) :
    l.mergeSort (fun a b => a ≤ b) = List.range n := by
  exact List.eq_of_perm_of_sorted (r := fun a b : Nat => a ≤ b)
    ((List.mergeSort_perm l _).trans h)
    (List.sorted_mergeSort' l)
    (List.sorted_le_range n)

/-- C7: when the queue is empty, every worker is idle (the idle stack
holds each worker index exactly once) and the worker count exceeds
minWorkers, one scaling iteration removes exactly
(workers - minWorkers + 1) / 2 = ceil((workers - minWorkers) / 2)
workers; the idle stack is sorted ascending before truncation, so the
surviving workers are exactly the lowest-indexed prefix (the original
core set) and the surviving idle stack is range of the new count. -/
theorem C7_sorted_scale_down (cfg : PoolConfig) (s : PoolScaleState)
    (hperm : s.workerStack.Perm (List.range s.workers.length))
    (hmin : cfg.minWorkers < s.workers.length) :
    (adjustStep cfg s 0).workers =
      s.workers.take
        (s.workers.length - (s.workers.length - cfg.minWorkers + 1) / 2) ∧
    (adjustStep cfg s 0).workerStack =
      List.range
        (s.workers.length - (s.workers.length - cfg.minWorkers + 1) / 2) ∧
    s.workers.length - (adjustStep cfg s 0).workers.length =
      (s.workers.length - cfg.minWorkers + 1) / 2 ∧
    s.workers.length - cfg.minWorkers ≤
      2 * ((s.workers.length - cfg.minWorkers + 1) / 2) ∧
    2 * ((s.workers.length - cfg.minWorkers + 1) / 2) ≤
      s.workers.length - cfg.minWorkers + 1 := by
  have hlen : s.workerStack.length = s.workers.length := by
    have := hperm.length_eq
    simpa using this
  have hnoup : ¬(0 > s.workers.length * 3 / 4 ∧ s.workers.length < cfg.maxWorkers) := by
    intro h
    exact Nat.not_lt_zero _ h.1
  have hdown : (0 = 0 ∧ s.workerStack.length = s.workers.length ∧
      s.workers.length > cfg.minWorkers) := ⟨rfl, hlen, hmin⟩
  unfold adjustStep
  rw [if_neg hnoup, if_pos hdown]
  refine ⟨rfl, ?_, ?_, ?_, ?_⟩
  · show (s.workerStack.mergeSort (fun a b => a ≤ b)).take
        (s.workerStack.length - (s.workers.length - cfg.minWorkers + 1) / 2) = _
    rw [mergeSort_perm_range hperm, hlen, List.take_range]
    congr 1
    omega
  · show s.workers.length - (s.workers.take _).length = _
    simp only [List.length_take]
    omega
  · omega
  · omega

/-- Concrete pool configuration used by witnesses: maxWorkers 4,
minWorkers 1, all other fields at their defaults. -/
def demoPoolConfig : PoolConfig :=
  { maxWorkers := 4, minWorkers := 1, taskQueueSize := 1000000,
    retryCount := 0, timeout := 0, resultCallbackSet := false,
    adjustInterval := 1000000000 }

/-- Concrete pool state used by witnesses: four workers, all idle,
with unsorted idle stack. -/
def demoPoolScaleState : PoolScaleState :=
  { workers := [0, 1, 2, 3], workerStack := [2, 0, 3, 1] }

/-- Witness for C7: four workers, all idle with stack [2, 0, 3, 1],
minWorkers = 1: the step removes the two highest-indexed workers. -/
theorem C7_sorted_scale_down_witness :
    (adjustStep demoPoolConfig demoPoolScaleState 0).workers =
      demoPoolScaleState.workers.take
        (demoPoolScaleState.workers.length -
          (demoPoolScaleState.workers.length - demoPoolConfig.minWorkers + 1) / 2) ∧
    (adjustStep demoPoolConfig demoPoolScaleState 0).workerStack =
      List.range
        (demoPoolScaleState.workers.length -
          (demoPoolScaleState.workers.length - demoPoolConfig.minWorkers + 1) / 2) := by
  have h := C7_sorted_scale_down demoPoolConfig demoPoolScaleState
    (by decide) (by decide)
  exact ⟨h.1, h.2.1⟩

/-! ## GoroutinePool: task queue introspection -/

/-- Runtime pool state relevant to Submit and the introspection
getters: the fixed configuration and the pending task queue contents
(tasks identified by Nat ids). -/
structure PoolState where
  config : PoolConfig
  pendingQueue : List Nat
  deriving Repr, DecidableEq

/-- Pool state after NewGoroutinePool: configuration from the options,
empty task queue (part_001:45-85). -/
def newGoroutinePool (maxWorkers : Nat) (options : List PoolOpt) : PoolState :=
  { config := newGoroutinePoolConfig maxWorkers options, pendingQueue := [] }

/-- Submit (part_001:87-89): enqueue the task. -/
def Submit (s : PoolState) (t : Nat) : PoolState :=
  { s with pendingQueue := s.pendingQueue ++ [t] }

/-- The dispatch loop taking one task off the queue (part_001:201-212). -/
def dispatchOne (s : PoolState) : PoolState :=
  { s with pendingQueue := s.pendingQueue.tail }

/-- GetTaskQueenSize (part_001:137-142): returns the taskQueueSize
field, the configured capacity. -/
def GetTaskQueenSize (s : PoolState) : Nat :=
  s.config.taskQueueSize

/-- Submissions and dispatches, the two operations that change the
pending queue. -/
inductive QueueEvent
  | submit (t : Nat)
  | dispatch
  deriving Repr, DecidableEq

/-- Effect of one queue event on the pool state. -/
def queueStep (s : PoolState) : QueueEvent → PoolState
  | .submit t => Submit s t
  | .dispatch => dispatchOne s

lemma queueStep_config :
    ∀ (events : List QueueEvent) (s : PoolState),
      (events.foldl queueStep s).config = s.config := by
  intro events
  induction events with
  | nil => intro s; rfl
  | cons e rest ih =>
    intro s
    rw [List.foldl_cons, ih]
    cases e <;> rfl

lemma foldl_applyOption_taskQueueSize :
    ∀ (options : List PoolOpt) (cfg : PoolConfig),
      options.all (fun o => !setsTaskQueueSize o) = true →
      (options.foldl applyOption cfg).taskQueueSize = cfg.taskQueueSize := by
  intro options
  induction options with
  | nil => intro cfg _; rfl
  | cons o rest ih =>
    intro cfg h
    simp only [List.all_cons, Bool.and_eq_true] at h
    rw [List.foldl_cons, ih _ h.2]
    cases o <;> simp_all [applyOption, setsTaskQueueSize]

/-- C10: GetTaskQueenSize returns the queue capacity fixed at
construction, unchanged by any sequence of submissions and dispatches;
when no WithTaskQueueSize option is given it is the default 1000000.
It is the capacity, not the number of pending tasks. -/
theorem C10_queue_size_is_capacity (maxWorkers : Nat) (options : List PoolOpt)
    (events : List QueueEvent) :
    GetTaskQueenSize (events.foldl queueStep (newGoroutinePool maxWorkers options)) =
      (newGoroutinePoolConfig maxWorkers options).taskQueueSize ∧
    (options.all (fun o => !setsTaskQueueSize o) = true →
      GetTaskQueenSize (events.foldl queueStep (newGoroutinePool maxWorkers options)) =
        1000000) := by
  have hc : (events.foldl queueStep (newGoroutinePool maxWorkers options)).config =
      (newGoroutinePool maxWorkers options).config := queueStep_config events _
  constructor
  · unfold GetTaskQueenSize
    rw [hc]
    rfl
  · intro hno
    unfold GetTaskQueenSize
    rw [hc]
    exact foldl_applyOption_taskQueueSize options _ hno

/-- Witness for C10: two submissions and one dispatch leave one
pending task, yet GetTaskQueenSize still returns the default
1000000. -/
theorem C10_queue_size_is_capacity_witness :
    GetTaskQueenSize ([QueueEvent.submit 4, QueueEvent.submit 9,
        QueueEvent.dispatch].foldl queueStep (newGoroutinePool 2 [])) = 1000000 :=
  (C10_queue_size_is_capacity 2 []
    [QueueEvent.submit 4, QueueEvent.submit 9, QueueEvent.dispatch]).2 (by decide)

/-! ## TimeWheel (part_000)

The wheel state holds the tick interval (nanoseconds), the slot
buckets, the key index and the cursor.  Go's map[string]*list.Element
taskMap is modelled as a function from keys to the slot position
stored in the indexed element (the element's pos field, an int, which
is what removeTask reads back); bucket membership itself identifies the
element, since under the wheel invariant a key occurs in at most one
bucket element.  Removing a *list.Element is modelled as erasing the
first element of that bucket carrying the key.  Go's truncating int
division and remainder are Int.tdiv and Int.tmod.  Indexing a slice
with an out-of-range index panics in Go; the corresponding operations
return none. -/

/-- The TaskElement struct (part_000:10-15); the task closure is
identified by a Nat id. -/
structure TaskElement where
  task : Nat
  pos : Int
  cycle : Int
  key : String
  deriving Repr, DecidableEq

/-- The TimeWheel struct fields that carry scheduling state
(part_000:17-27). -/
structure TimeWheelState where
  interval : Int
  slots : List (List TaskElement)
  taskMap : String → Option Int
  curSlot : Nat

/-- NewTimeWheel (part_000:29-53): slot count clamped up to 10,
interval defaulted to one second (1000000000 ns) when non-positive,
all buckets empty, cursor at 0. -/
def NewTimeWheel (slotNum : Nat) (interval : Int) : TimeWheelState :=
  { interval := if interval ≤ 0 then 1000000000 else interval,
    slots := List.replicate (if slotNum < 10 then 10 else slotNum) [],
    taskMap := fun _ => none,
    curSlot := 0 }

/-- TimeWheel.getPosAndCircle (part_000:147-152), with delay =
executeAt - now supplied directly. -/
def getPosAndCircle (s : TimeWheelState) (delay : Int) : Int × Int :=
  let cycle := delay.tdiv (s.interval * (s.slots.length : Int))
  let pos := ((s.curSlot : Int) + delay.tdiv s.interval).tmod ((s.slots.length : Int))
  (pos, cycle)

/-- TimeWheel.removeTask (part_000:137-145): no-op for an unknown key;
otherwise delete the index entry and remove the key's element from the
bucket at the element's stored pos.  Go indexes t.slots[task.pos], so
an out-of-range stored pos would panic: none. -/
def removeTask (s : TimeWheelState) (key : String) : Option TimeWheelState :=
  match s.taskMap key with
  | none => some s
  | some p =>
    if 0 ≤ p ∧ p.toNat < s.slots.length then
      some { s with
        taskMap := fun k => if k = key then none else s.taskMap k,
        slots := s.slots.set p.toNat
          ((s.slots.getD p.toNat []).eraseP (fun el => el.key == key)) }
    else none

/-- TimeWheel.addTask (part_000:128-135): index the target bucket
(panics — none — if task.pos is out of range, line 129), remove any
existing task under the same key, append the new element to the
bucket, and index it. -/
def addTask (s : TimeWheelState) (t : TaskElement) : Option TimeWheelState :=
  if 0 ≤ t.pos ∧ t.pos.toNat < s.slots.length then
    match (if (s.taskMap t.key).isSome then removeTask s t.key else some s) with
    | none => none
    | some s1 =>
      some { s1 with
        slots := s1.slots.set t.pos.toNat ((s1.slots.getD t.pos.toNat []) ++ [t]),
        taskMap := fun k => if k = t.key then some t.pos else s1.taskMap k }
  else none

/-- TimeWheel.AddTask (part_000:62-70): compute pos and cycle from the
delay, then hand the element to the control loop's addTask. -/
def AddTask (s : TimeWheelState) (key : String) (task : Nat) (delay : Int) :
    Option TimeWheelState :=
  addTask s
    { task := task, pos := (getPosAndCircle s delay).1,
      cycle := (getPosAndCircle s delay).2, key := key }

/-- TimeWheel.execute (part_000:103-126) over one bucket: returns the
surviving bucket contents, the updated key index, and the launched
(fired) tasks in scan order.  A task with cycle > 0 is decremented and
kept; otherwise it is removed from the bucket, its key deleted from
the index, and it is launched. -/
def executeList (bucket : List TaskElement) (m : String → Option Int) :
    List TaskElement × (String → Option Int) × List TaskElement :=
  match bucket with
  | [] => ([], m, [])
  | el :: rest =>
    if 0 < el.cycle then
      let r := executeList rest m
      ({ el with cycle := el.cycle - 1 } :: r.1, r.2.1, r.2.2)
    else
      let r := executeList rest (fun k => if k = el.key then none else m k)
      (r.1, r.2.1, el :: r.2.2)

/-- TimeWheel.tick (part_000:97-101) with circleIncr (part_000:154-156):
process the bucket at the cursor, then advance the cursor modulo the
slot count.  Also returns the fired tasks. -/
def tick (s : TimeWheelState) : TimeWheelState × List TaskElement :=
  let r := executeList (s.slots.getD s.curSlot []) s.taskMap
  ({ s with
      slots := s.slots.set s.curSlot r.1,
      taskMap := r.2.1,
      curSlot := (s.curSlot + 1) % s.slots.length }, r.2.2)

/-- Iterated ticks. -/
def ticks : Nat → TimeWheelState → TimeWheelState
  | 0, s => s
  | n + 1, s => ticks n (tick s).1

/-- Spec formula for the slot position (spec 4.1: pos = (currentSlot +
delay / tickInterval) mod slotCount, Go integer semantics), written
independently of the source for the refinement comparison of C4. -/
def specSlotPos (curSlot : Nat) (delay interval : Int) (slotCount : Nat) : Int :=
  ((curSlot : Int) + delay.tdiv interval).tmod ((slotCount : Int))

/-- Spec formula for the cycle count (spec 4.1: cycle = delay /
(tickInterval * slotCount), integer division), written independently
of the source for the refinement comparison of C4. -/
def specCycleCount (delay interval : Int) (slotCount : Nat) : Int :=
  delay.tdiv (interval * (slotCount : Int))

lemma removeTask_some_elim {s s' : TimeWheelState} {key : String}
    (h : removeTask s key = some s') :
    s'.slots.length = s.slots.length ∧ s'.curSlot = s.curSlot ∧
      s'.interval = s.interval := by
  unfold removeTask at h
  split at h
  · cases h; exact ⟨rfl, rfl, rfl⟩
  · split at h
    · cases h; simp [List.length_set]
    · cases h

/-- C4: for every wheel state and every delay, including negative
ones, AddTask computes pos and cycle exactly by the spec formulas
(truncating integer division, no clamping), and whenever the insertion
succeeds, the element appended to the computed bucket and the index
entry carry exactly those values. -/
theorem C4_pos_cycle_formula (s : TimeWheelState) (key : String) (task : Nat)
    (delay : Int) :
    (getPosAndCircle s delay).1 =
      specSlotPos s.curSlot delay s.interval s.slots.length ∧
    (getPosAndCircle s delay).2 =
      specCycleCount delay s.interval s.slots.length ∧
    (∀ s', AddTask s key task delay = some s' →
      s'.taskMap key = some (specSlotPos s.curSlot delay s.interval s.slots.length) ∧
      ∃ b, s'.slots.getD (specSlotPos s.curSlot delay s.interval s.slots.length).toNat [] =
        b ++ [{ task := task,
                pos := specSlotPos s.curSlot delay s.interval s.slots.length,
                cycle := specCycleCount delay s.interval s.slots.length,
                key := key }]) := by
  refine ⟨rfl, rfl, ?_⟩
  intro s' h
  unfold AddTask addTask at h
  split at h
  · rename_i hp
    set t : TaskElement :=
      { task := task, pos := (getPosAndCircle s delay).1,
        cycle := (getPosAndCircle s delay).2, key := key } with ht
    split at h
    · cases h
    · rename_i s1 heq
      cases h
      have hlen : s1.slots.length = s.slots.length := by
        by_cases hc : (s.taskMap t.key).isSome
        · rw [if_pos hc] at heq
          exact (removeTask_some_elim heq).1
        · rw [if_neg hc] at heq
          cases heq; rfl
      have hlt : t.pos.toNat < s1.slots.length := by
        rw [hlen]; exact hp.2
      constructor
      · show (fun k => if k = t.key then some t.pos else s1.taskMap k) key = _
        simp [ht, specSlotPos, getPosAndCircle]
      · refine ⟨s1.slots.getD t.pos.toNat [], ?_⟩
        show (s1.slots.set t.pos.toNat ((s1.slots.getD t.pos.toNat []) ++ [t])).getD
          t.pos.toNat [] = _
        rw [List.getD_eq_getElem?_getD, List.getElem?_set_self hlt]
        simp [ht, specSlotPos, specCycleCount, getPosAndCircle]
  · cases h

/-- Witness for C4: wheel of 10 slots, interval 1, cursor 0, negative
delay -12: pos = (0 + (-12)) tmod 10 = -2 and cycle = -1 are computed
without clamping (and the insertion then fails: see C9); with delay
23 the element is stored at slot 3 with cycle 2. -/
theorem C4_pos_cycle_formula_witness :
    (getPosAndCircle (NewTimeWheel 10 1) (-12)).1 = -2 ∧
    (getPosAndCircle (NewTimeWheel 10 1) (-12)).2 = -1 ∧
    ∃ s', AddTask (NewTimeWheel 10 1) "k" 5 23 = some s' ∧
      s'.taskMap "k" =
        some (specSlotPos (NewTimeWheel 10 1).curSlot 23 (NewTimeWheel 10 1).interval
          (NewTimeWheel 10 1).slots.length) := by
  refine ⟨by decide, by decide, ?_⟩
  match hs : AddTask (NewTimeWheel 10 1) "k" 5 23 with
  | none =>
    have hfalse : (AddTask (NewTimeWheel 10 1) "k" 5 23).isNone = false := by decide
    rw [hs] at hfalse
    simp at hfalse
  | some s' =>
    exact ⟨s', rfl,
      ((C4_pos_cycle_formula (NewTimeWheel 10 1) "k" 5 23).2.2 s' hs).1⟩

/-- C9: a sufficiently past fireAt (here delay = -1 with interval 1,
cursor 0, 10 slots, so delay ≤ -tickInterval and currentSlot +
delay / tickInterval < 0) makes the computed slot position negative
under Go's truncating remainder, and addTask's slot indexing is then
out of bounds: AddTask has no defined result (a runtime panic in Go). -/
theorem C9_negative_pos_panics :
    (-1 : Int) ≤ -(NewTimeWheel 10 1).interval ∧
    ((NewTimeWheel 10 1).curSlot : Int) + (-1 : Int).tdiv (NewTimeWheel 10 1).interval < 0 ∧
    (getPosAndCircle (NewTimeWheel 10 1) (-1)).1 < 0 ∧
    (AddTask (NewTimeWheel 10 1) "k" 0 (-1)).isNone = true := by
  refine ⟨by decide, by decide, by decide, by decide⟩

/-! ## TimeWheel invariant machinery -/

/-- Number of elements in a bucket carrying the given key. -/
def bucketCount (b : List TaskElement) (k : String) : Nat :=
  b.countP (fun el => el.key == k)

/-- Survivors of one execute pass over a bucket: tasks with positive
cycle, decremented (spec-shaped description of the bucket the Go scan
leaves behind). -/
def execBucket (b : List TaskElement) : List TaskElement :=
  b.filterMap (fun el => if 0 < el.cycle then some { el with cycle := el.cycle - 1 } else none)

/-- Tasks an execute pass launches: those without positive cycle. -/
def firedTasks (b : List TaskElement) : List TaskElement :=
  b.filter (fun el => !decide (0 < el.cycle))

lemma executeList_fst (b : List TaskElement) (m : String → Option Int) :
    (executeList b m).1 = execBucket b := by
  induction b generalizing m with
  | nil => rfl
  | cons el rest ih =>
    unfold executeList execBucket
    by_cases h : 0 < el.cycle <;>
      simp [h, List.filterMap_cons, ih, execBucket]

lemma executeList_fired (b : List TaskElement) (m : String → Option Int) :
    (executeList b m).2.2 = firedTasks b := by
  induction b generalizing m with
  | nil => rfl
  | cons el rest ih =>
    unfold executeList firedTasks
    by_cases h : 0 < el.cycle <;>
      simp [h, List.filter_cons, ih, firedTasks]

lemma executeList_map (b : List TaskElement) (m : String → Option Int) (k : String) :
    (executeList b m).2.1 k =
      if (firedTasks b).any (fun el => el.key == k) then none else m k := by
  induction b generalizing m with
  | nil => simp [executeList, firedTasks]
  | cons el rest ih =>
    unfold executeList
    by_cases h : 0 < el.cycle
    · simp only [h, if_true]
      rw [ih]
      simp [firedTasks, List.filter_cons, h]
    · simp only [h, if_false]
      rw [ih]
      by_cases hk : el.key == k
      · have hk' : el.key = k := by simpa using hk
        simp [firedTasks, List.filter_cons, h, hk, hk']
      · have hk' : ¬(k = el.key) := by
          intro hkk; rw [hkk] at hk; simp at hk
        simp [firedTasks, List.filter_cons, h, hk, hk']

lemma countP_two_le {α : Type} (p : α → Bool) :
    ∀ {l : List α} {a b : α}, a ∈ l → b ∈ l → a ≠ b → p a = true → p b = true →
      2 ≤ l.countP p := by
  intro l
  induction l with
  | nil => intro a b ha; simp at ha
  | cons x rest ih =>
    intro a b ha hb hne hpa hpb
    rcases List.mem_cons.1 ha with rfl | ha'
    · rcases List.mem_cons.1 hb with rfl | hb'
      · exact absurd rfl hne
      · have h1 : 0 < rest.countP p :=
          List.countP_pos_iff.2 ⟨b, hb', hpb⟩
        rw [List.countP_cons, if_pos hpa]
        omega
    · rcases List.mem_cons.1 hb with rfl | hb'
      · have h1 : 0 < rest.countP p :=
          List.countP_pos_iff.2 ⟨a, ha', hpa⟩
        rw [List.countP_cons, if_pos hpb]
        omega
      · have := ih ha' hb' hne hpa hpb
        rw [List.countP_cons]
        split <;> omega

lemma countP_eq_one_unique {α : Type} (p : α → Bool) {l : List α}
    (h : l.countP p = 1) {a b : α} (ha : a ∈ l) (hpa : p a = true)
    (hb : b ∈ l) (hpb : p b = true) : a = b := by
  by_contra hne
  have := countP_two_le p ha hb hne hpa hpb
  omega

lemma countP_eraseP_self {α : Type} (p : α → Bool) (l : List α) :
    (l.eraseP p).countP p = l.countP p - 1 := by
  induction l with
  | nil => rfl
  | cons a rest ih =>
    by_cases h : p a
    · rw [List.eraseP_cons_of_pos h, List.countP_cons, if_pos h]
      omega
    · rw [List.eraseP_cons_of_neg h, List.countP_cons, if_neg h,
        List.countP_cons, if_neg h, ih]
      omega

lemma countP_eraseP_of_disj {α : Type} (p q : α → Bool) (l : List α)
    (h : ∀ a, q a = true → p a = false) :
    (l.eraseP q).countP p = l.countP p := by
  induction l with
  | nil => rfl
  | cons a rest ih =>
    by_cases hq : q a
    · rw [List.eraseP_cons_of_pos hq, List.countP_cons, if_neg]
      · omega
      · rw [h a hq]; simp
    · rw [List.eraseP_cons_of_neg hq, List.countP_cons, List.countP_cons, ih]

lemma bucketCount_append (b1 b2 : List TaskElement) (k : String) :
    bucketCount (b1 ++ b2) k = bucketCount b1 k + bucketCount b2 k :=
  List.countP_append ..

lemma bucketCount_execBucket (b : List TaskElement) (k : String) :
    bucketCount (execBucket b) k =
      b.countP (fun el => el.key == k && decide (0 < el.cycle)) := by
  induction b with
  | nil => rfl
  | cons el rest ih =>
    unfold execBucket bucketCount at *
    by_cases h : 0 < el.cycle <;>
      by_cases hk : el.key == k <;>
        simp [List.filterMap_cons, List.countP_cons, h, hk, ih]

lemma bucketCount_fired (b : List TaskElement) (k : String) :
    bucketCount (firedTasks b) k =
      b.countP (fun el => el.key == k && !decide (0 < el.cycle)) := by
  unfold bucketCount firedTasks
  rw [List.countP_filter]

lemma bucketCount_cycle_split (b : List TaskElement) (k : String) :
    bucketCount b k =
      b.countP (fun el => el.key == k && decide (0 < el.cycle)) +
      b.countP (fun el => el.key == k && !decide (0 < el.cycle)) := by
  induction b with
  | nil => rfl
  | cons el rest ih =>
    unfold bucketCount at *
    by_cases h : 0 < el.cycle <;>
      by_cases hk : el.key == k <;>
        simp [List.countP_cons, h, hk, ih] <;> omega

lemma getD_set_self {α : Type} {l : List α} {i : Nat} (x d : α)
    (h : i < l.length) : (l.set i x).getD i d = x := by
  rw [List.getD_eq_getElem?_getD, List.getElem?_set_self (by simpa using h)]
  rfl

lemma getD_set_ne {α : Type} {l : List α} {i j : Nat} (x d : α)
    (h : i ≠ j) : (l.set i x).getD j d = l.getD j d := by
  rw [List.getD_eq_getElem?_getD, List.getElem?_set_ne h,
    ← List.getD_eq_getElem?_getD]

lemma getD_set_cases {α : Type} (l : List α) (c : Nat) (x d : α) (i : Nat) :
    (l.set c x).getD i d = x ∨ (l.set c x).getD i d = l.getD i d := by
  by_cases hc : c = i
  · subst hc
    by_cases hlen : c < l.length
    · exact Or.inl (getD_set_self x d hlen)
    · right
      rw [List.set_eq_of_length_le (by omega)]
  · exact Or.inr (getD_set_ne x d hc)

/-- The wheel invariant of C8: every element sits in the bucket its
pos field names and is indexed under its key; every indexed key has an
in-range stored position whose bucket holds exactly one element with
that key; an unindexed key occurs in no bucket.  Together: every
active key appears in exactly one slot bucket, exactly once, and the
single index entry points at that element's bucket.  The cursor stays
in range. -/
def Inv (s : TimeWheelState) : Prop :=
  s.curSlot < s.slots.length ∧
  (∀ i : Nat, ∀ el ∈ s.slots.getD i [],
    el.pos = (i : Int) ∧ s.taskMap el.key = some ((i : Int))) ∧
  (∀ k p, s.taskMap k = some p →
    0 ≤ p ∧ p < (s.slots.length : Int) ∧
      bucketCount (s.slots.getD p.toNat []) k = 1) ∧
  (∀ k, s.taskMap k = none → ∀ i : Nat, bucketCount (s.slots.getD i []) k = 0)

lemma getD_replicate_nil (n i : Nat) :
    (List.replicate n ([] : List TaskElement)).getD i [] = [] := by
  by_cases h : i < n
  · rw [List.getD_eq_getElem?_getD,
      List.getElem?_eq_getElem (by simpa using h)]
    simp [List.getElem_replicate]
  · rw [List.getD_eq_getElem?_getD,
      List.getElem?_eq_none (by simpa using h)]
    rfl

/-- A freshly created wheel satisfies the invariant. -/
lemma inv_newTimeWheel (slotNum : Nat) (interval : Int) :
    Inv (NewTimeWheel slotNum interval) := by
  refine ⟨?_, ?_, ?_, ?_⟩
  · show 0 < (List.replicate (if slotNum < 10 then 10 else slotNum)
      ([] : List TaskElement)).length
    rw [List.length_replicate]
    split <;> omega
  · intro i el hel
    rw [show (NewTimeWheel slotNum interval).slots =
      List.replicate (if slotNum < 10 then 10 else slotNum) [] from rfl,
      getD_replicate_nil] at hel
    simp at hel
  · intro k p h
    exact absurd h (by simp [NewTimeWheel])
  · intro k _ i
    rw [show (NewTimeWheel slotNum interval).slots =
      List.replicate (if slotNum < 10 then 10 else slotNum) [] from rfl,
      getD_replicate_nil]
    rfl

lemma getD_set_eq_cases {α : Type} (l : List α) {c : Nat} (hc : c < l.length)
    (x d : α) (i : Nat) :
    (i = c ∧ (l.set c x).getD i d = x) ∨
      (i ≠ c ∧ (l.set c x).getD i d = l.getD i d) := by
  by_cases hic : i = c
  · subst hic
    exact Or.inl ⟨rfl, getD_set_self x d hc⟩
  · exact Or.inr ⟨hic, getD_set_ne x d (fun hci => hic hci.symm)⟩

lemma removeTask_some_cases {s : TimeWheelState} {key : String} {s' : TimeWheelState}
    (h : removeTask s key = some s') :
    (s.taskMap key = none ∧ s' = s) ∨
    (∃ p, s.taskMap key = some p ∧ 0 ≤ p ∧ p.toNat < s.slots.length ∧
      s' = { s with
        taskMap := fun k => if k = key then none else s.taskMap k,
        slots := s.slots.set p.toNat
          ((s.slots.getD p.toNat []).eraseP (fun el => el.key == key)) }) := by
  unfold removeTask at h
  split at h
  · rename_i heq
    cases h
    exact Or.inl ⟨heq, rfl⟩
  · rename_i p heq
    split at h
    · rename_i hp
      cases h
      exact Or.inr ⟨p, heq, hp.1, hp.2, rfl⟩
    · cases h

lemma inv_bucket_unique {s : TimeWheelState} (hInv : Inv s) {k : String} {p : Int}
    (hmap : s.taskMap k = some p) :
    ∀ i : Nat, i ≠ p.toNat → bucketCount (s.slots.getD i []) k = 0 := by
  intro i hne
  by_contra hpos
  have h1 : 0 < bucketCount (s.slots.getD i []) k := Nat.pos_of_ne_zero hpos
  obtain ⟨el, hel, hkel⟩ := List.countP_pos_iff.1 h1
  have hB := hInv.2.1 i el hel
  have hkeq : el.key = k := by simpa using hkel
  rw [hkeq, hmap] at hB
  have hip : (i : Int) = p := by
    have := hB.2
    injection this with h'
    exact h'.symm
  have h0 : 0 ≤ p := (hInv.2.2.1 k p hmap).1
  omega

lemma removeTask_preserves_inv {s : TimeWheelState} (hInv : Inv s) {key : String}
    {s' : TimeWheelState} (h : removeTask s key = some s') : Inv s' := by
  rcases removeTask_some_cases h with ⟨-, rfl⟩ | ⟨p, hmap, hp0, hplen, rfl⟩
  · exact hInv
  · obtain ⟨hA, hB, hC, hD⟩ := hInv
    have hcount1 : bucketCount (s.slots.getD p.toNat []) key = 1 :=
      (hC key p hmap).2.2
    refine ⟨?_, ?_, ?_, ?_⟩
    · show s.curSlot < (s.slots.set _ _).length
      rw [List.length_set]
      exact hA
    · intro i el hel
      rcases getD_set_eq_cases s.slots hplen
        ((s.slots.getD p.toNat []).eraseP (fun el => el.key == key)) [] i with
        ⟨rfl, hbkt⟩ | ⟨hne, hbkt⟩
      · rw [hbkt] at hel
        have hel0 : el ∈ s.slots.getD p.toNat [] := List.mem_of_mem_eraseP hel
        have hB0 := hB p.toNat el hel0
        have hkne : el.key ≠ key := by
          intro hkk
          have hz : ((s.slots.getD p.toNat []).eraseP
              (fun el => el.key == key)).countP (fun el => el.key == key) = 0 := by
            rw [countP_eraseP_self]
            unfold bucketCount at hcount1
            omega
          have hpos : 0 < ((s.slots.getD p.toNat []).eraseP
              (fun el => el.key == key)).countP (fun el => el.key == key) :=
            List.countP_pos_iff.2 ⟨el, hel, by simp [hkk]⟩
          omega
        refine ⟨hB0.1, ?_⟩
        show (if el.key = key then none else s.taskMap el.key) = _
        rw [if_neg hkne]
        exact hB0.2
      · rw [hbkt] at hel
        have hB0 := hB i el hel
        have hkne : el.key ≠ key := by
          intro hkk
          rw [hkk, hmap] at hB0
          have : (i : Int) = p := by
            have := hB0.2
            injection this with h'
            exact h'.symm
          omega
        refine ⟨hB0.1, ?_⟩
        show (if el.key = key then none else s.taskMap el.key) = _
        rw [if_neg hkne]
        exact hB0.2
    · intro k q hq
      dsimp only at hq ⊢
      have hkne : k ≠ key := by
        intro hkk
        rw [if_pos hkk] at hq
        cases hq
      rw [if_neg hkne] at hq
      obtain ⟨h0, hlt, hcnt⟩ := hC k q hq
      refine ⟨h0, ?_, ?_⟩
      · rw [List.length_set]
        exact hlt
      · have hdisj : ∀ a : TaskElement, (a.key == key) = true →
            (a.key == k) = false := by
          intro a ha
          have : a.key = key := by simpa using ha
          simp [this]
          intro hkk
          exact hkne hkk.symm
        rcases getD_set_eq_cases s.slots hplen
          ((s.slots.getD p.toNat []).eraseP (fun el => el.key == key)) [] q.toNat with
          ⟨hqe, hbkt⟩ | ⟨hne, hbkt⟩
        · rw [hbkt]
          unfold bucketCount
          rw [countP_eraseP_of_disj _ _ _ hdisj]
          rw [hqe] at hcnt
          exact hcnt
        · rw [hbkt]
          exact hcnt
    · intro k hk i
      dsimp only at hk ⊢
      by_cases hkk : k = key
      · subst hkk
        rcases getD_set_eq_cases s.slots hplen
          ((s.slots.getD p.toNat []).eraseP (fun el => el.key == k)) [] i with
          ⟨rfl, hbkt⟩ | ⟨hne, hbkt⟩
        · rw [hbkt]
          unfold bucketCount
          rw [countP_eraseP_self]
          unfold bucketCount at hcount1
          omega
        · rw [hbkt]
          exact inv_bucket_unique ⟨hA, hB, hC, hD⟩ hmap i (by omega)
      · have hk0 : s.taskMap k = none := by
          rw [if_neg hkk] at hk
          exact hk
        have hdisj : ∀ a : TaskElement, (a.key == key) = true →
            (a.key == k) = false := by
          intro a ha
          have : a.key = key := by simpa using ha
          simp [this]
          intro h'
          exact hkk h'.symm
        rcases getD_set_eq_cases s.slots hplen
          ((s.slots.getD p.toNat []).eraseP (fun el => el.key == key)) [] i with
          ⟨rfl, hbkt⟩ | ⟨hne, hbkt⟩
        · rw [hbkt]
          unfold bucketCount
          rw [countP_eraseP_of_disj _ _ _ hdisj]
          exact hD k hk0 p.toNat
        · rw [hbkt]
          exact hD k hk0 i

lemma addTask_some_elim {s : TimeWheelState} {t : TaskElement} {s' : TimeWheelState}
    (h : addTask s t = some s') :
    0 ≤ t.pos ∧ t.pos.toNat < s.slots.length ∧
    ∃ s1, (if (s.taskMap t.key).isSome then removeTask s t.key else some s) = some s1 ∧
      s' = { s1 with
        slots := s1.slots.set t.pos.toNat ((s1.slots.getD t.pos.toNat []) ++ [t]),
        taskMap := fun k => if k = t.key then some t.pos else s1.taskMap k } := by
  unfold addTask at h
  split at h
  · rename_i hp
    split at h
    · cases h
    · rename_i s1 heq
      cases h
      exact ⟨hp.1, hp.2, s1, heq, rfl⟩
  · cases h

lemma addTask_mid_state {s : TimeWheelState} {t : TaskElement} {s1 : TimeWheelState}
    (heq : (if (s.taskMap t.key).isSome then removeTask s t.key else some s) = some s1)
    (hInv : Inv s) :
    Inv s1 ∧ s1.taskMap t.key = none ∧ s1.slots.length = s.slots.length ∧
      s1.curSlot = s.curSlot := by
  by_cases hc : (s.taskMap t.key).isSome
  · rw [if_pos hc] at heq
    have hInv1 := removeTask_preserves_inv hInv heq
    rcases removeTask_some_cases heq with ⟨hnone, rfl⟩ | ⟨p, hmap, hp0, hplen, rfl⟩
    · rw [hnone] at hc
      simp at hc
    · exact ⟨hInv1, by simp, by simp, rfl⟩
  · rw [if_neg hc] at heq
    cases heq
    refine ⟨hInv, ?_, rfl, rfl⟩
    cases hmk : s.taskMap t.key with
    | none => rfl
    | some p => rw [hmk] at hc; simp at hc

lemma addTask_preserves_inv {s : TimeWheelState} (hInv : Inv s) {t : TaskElement}
    {s' : TimeWheelState} (h : addTask s t = some s') : Inv s' := by
  obtain ⟨hp0, hplen, s1, heq, rfl⟩ := addTask_some_elim h
  obtain ⟨hInv1, hmapt, hlen1, -⟩ := addTask_mid_state heq hInv
  obtain ⟨hA1, hB1, hC1, hD1⟩ := hInv1
  have hplen1 : t.pos.toNat < s1.slots.length := by rw [hlen1]; exact hplen
  have hposcast : ((t.pos.toNat : Int)) = t.pos := Int.toNat_of_nonneg hp0
  refine ⟨?_, ?_, ?_, ?_⟩
  · show s1.curSlot < (s1.slots.set _ _).length
    rw [List.length_set]
    exact hA1
  · intro i el hel
    dsimp only at hel ⊢
    rcases getD_set_eq_cases s1.slots hplen1
      ((s1.slots.getD t.pos.toNat []) ++ [t]) [] i with ⟨rfl, hbkt⟩ | ⟨hne, hbkt⟩
    · rw [hbkt] at hel
      rcases List.mem_append.1 hel with hel0 | helt
      · have hB0 := hB1 t.pos.toNat el hel0
        have hkne : el.key ≠ t.key := by
          intro hkk
          have hz := hD1 t.key hmapt t.pos.toNat
          have hpos : 0 < bucketCount (s1.slots.getD t.pos.toNat []) t.key :=
            List.countP_pos_iff.2 ⟨el, hel0, by simp [hkk]⟩
          omega
        refine ⟨hB0.1, ?_⟩
        rw [if_neg hkne]
        exact hB0.2
      · have helt' : el = t := by simpa using helt
        subst helt'
        refine ⟨hposcast.symm, ?_⟩
        rw [if_pos rfl, hposcast]
    · rw [hbkt] at hel
      have hB0 := hB1 i el hel
      have hkne : el.key ≠ t.key := by
        intro hkk
        have hz := hD1 t.key hmapt i
        have hpos : 0 < bucketCount (s1.slots.getD i []) t.key :=
          List.countP_pos_iff.2 ⟨el, hel, by simp [hkk]⟩
        omega
      refine ⟨hB0.1, ?_⟩
      rw [if_neg hkne]
      exact hB0.2
  · intro k q hq
    dsimp only at hq ⊢
    by_cases hkt : k = t.key
    · rw [if_pos hkt] at hq
      injection hq with hq'
      subst hq'
      refine ⟨hp0, ?_, ?_⟩
      · rw [List.length_set, hlen1]
        omega
      · rcases getD_set_eq_cases s1.slots hplen1
          ((s1.slots.getD t.pos.toNat []) ++ [t]) [] t.pos.toNat with
          ⟨hqe, hbkt⟩ | ⟨hne, hbkt⟩
        · rw [hbkt, hkt]
          rw [bucketCount_append]
          have hz := hD1 t.key hmapt t.pos.toNat
          have hone : bucketCount [t] t.key = 1 := by
            unfold bucketCount
            simp [List.countP_cons]
          omega
        · exact absurd rfl hne
    · rw [if_neg hkt] at hq
      obtain ⟨h0, hlt, hcnt⟩ := hC1 k q hq
      refine ⟨h0, ?_, ?_⟩
      · rw [List.length_set]
        exact hlt
      · rcases getD_set_eq_cases s1.slots hplen1
          ((s1.slots.getD t.pos.toNat []) ++ [t]) [] q.toNat with
          ⟨hqe, hbkt⟩ | ⟨hne, hbkt⟩
        · rw [hbkt, bucketCount_append]
          have hzt : bucketCount [t] k = 0 := by
            unfold bucketCount
            simp [List.countP_cons]
            intro hkk
            exact hkt hkk.symm
          rw [hqe] at hcnt
          omega
        · rw [hbkt]
          exact hcnt
  · intro k hk i
    dsimp only at hk ⊢
    have hkt : ¬(k = t.key) := by
      intro hkk
      rw [if_pos hkk] at hk
      cases hk
    rw [if_neg hkt] at hk
    rcases getD_set_eq_cases s1.slots hplen1
      ((s1.slots.getD t.pos.toNat []) ++ [t]) [] i with ⟨rfl, hbkt⟩ | ⟨hne, hbkt⟩
    · rw [hbkt, bucketCount_append]
      have hzt : bucketCount [t] k = 0 := by
        unfold bucketCount
        simp [List.countP_cons]
        intro hkk
        exact hkt hkk.symm
      have := hD1 k hk t.pos.toNat
      omega
    · rw [hbkt]
      exact hD1 k hk i

lemma tick_components (s : TimeWheelState) :
    (tick s).1.slots = s.slots.set s.curSlot (execBucket (s.slots.getD s.curSlot [])) ∧
    (∀ k, (tick s).1.taskMap k =
      if (firedTasks (s.slots.getD s.curSlot [])).any (fun el => el.key == k) then none
      else s.taskMap k) ∧
    (tick s).1.curSlot = (s.curSlot + 1) % s.slots.length ∧
    (tick s).2 = firedTasks (s.slots.getD s.curSlot []) := by
  refine ⟨?_, ?_, rfl, ?_⟩
  · show s.slots.set s.curSlot (executeList (s.slots.getD s.curSlot []) s.taskMap).1 = _
    rw [executeList_fst]
  · intro k
    show (executeList (s.slots.getD s.curSlot []) s.taskMap).2.1 k = _
    rw [executeList_map]
  · show (executeList (s.slots.getD s.curSlot []) s.taskMap).2.2 = _
    rw [executeList_fired]

lemma countP_fired_zero_of_any_false {b : List TaskElement} {k : String}
    (hfa : (firedTasks b).any (fun el => el.key == k) = false) :
    b.countP (fun el => el.key == k && !decide (0 < el.cycle)) = 0 := by
  rw [← bucketCount_fired]
  unfold bucketCount
  rw [List.countP_eq_zero]
  intro f hf
  have := List.any_eq_false.1 hfa f hf
  simpa using this

lemma tick_preserves_inv {s : TimeWheelState} (hInv : Inv s) : Inv (tick s).1 := by
  obtain ⟨hA, hB, hC, hD⟩ := hInv
  obtain ⟨hslots, hmap, hcur, -⟩ := tick_components s
  have hlen0 : 0 < s.slots.length := lt_of_le_of_lt (Nat.zero_le _) hA
  have hcnt_cur : ∀ k, s.taskMap k = some ((s.curSlot : Int)) →
      bucketCount (s.slots.getD s.curSlot []) k = 1 := by
    intro k hk
    have := (hC k _ hk).2.2
    simpa using this
  refine ⟨?_, ?_, ?_, ?_⟩
  · rw [hcur]
    have : (tick s).1.slots.length = s.slots.length := by
      rw [hslots, List.length_set]
    rw [this]
    exact Nat.mod_lt _ hlen0
  · intro i el hel
    rw [hslots] at hel
    rcases getD_set_eq_cases s.slots hA
      (execBucket (s.slots.getD s.curSlot [])) [] i with ⟨rfl, hbkt⟩ | ⟨hne, hbkt⟩
    · rw [hbkt] at hel
      obtain ⟨el0, hel0, hifeq⟩ := List.mem_filterMap.1 hel
      by_cases hcyc : 0 < el0.cycle
      · rw [if_pos hcyc] at hifeq
        injection hifeq with hifeq
        subst hifeq
        have hB0 := hB s.curSlot el0 hel0
        refine ⟨hB0.1, ?_⟩
        rw [hmap]
        have hnofire : (firedTasks (s.slots.getD s.curSlot [])).any
            (fun f => f.key == el0.key) = false := by
          rw [List.any_eq_false]
          intro f hf
          intro hfk
          have hfk' : f.key = el0.key := by simpa using hfk
          have hfb : f ∈ s.slots.getD s.curSlot [] := List.mem_of_mem_filter hf
          have hone : bucketCount (s.slots.getD s.curSlot []) el0.key = 1 :=
            hcnt_cur el0.key hB0.2
          have hfeq : f = el0 := by
            apply countP_eq_one_unique _ hone hfb _ hel0 _
            · simp [hfk']
            · simp
          have hfc := List.mem_filter.1 hf
          rw [hfeq] at hfc
          simp [hcyc] at hfc
        simp only [hnofire, Bool.false_eq_true, if_false]
        exact hB0.2
      · rw [if_neg hcyc] at hifeq
        cases hifeq
    · rw [hbkt] at hel
      have hB0 := hB i el hel
      refine ⟨hB0.1, ?_⟩
      rw [hmap]
      have hnofire : (firedTasks (s.slots.getD s.curSlot [])).any
          (fun f => f.key == el.key) = false := by
        rw [List.any_eq_false]
        intro f hf
        intro hfk
        have hfk' : f.key = el.key := by simpa using hfk
        have hfb : f ∈ s.slots.getD s.curSlot [] := List.mem_of_mem_filter hf
        have hBf := hB s.curSlot f hfb
        rw [hfk'] at hBf
        rw [hB0.2] at hBf
        have h2 := hBf.2
        rw [Option.some_inj] at h2
        exact hne (by omega)
      simp only [hnofire, Bool.false_eq_true, if_false]
      exact hB0.2
  · intro k q hq
    rw [hmap] at hq
    cases hfa : (firedTasks (s.slots.getD s.curSlot [])).any (fun el => el.key == k) with
    | true => rw [hfa] at hq; simp at hq
    | false =>
      rw [hfa] at hq
      simp only [Bool.false_eq_true, if_false] at hq
      obtain ⟨h0, hlt, hcnt⟩ := hC k q hq
      refine ⟨h0, ?_, ?_⟩
      · rw [hslots, List.length_set]
        exact hlt
      · rw [hslots]
        rcases getD_set_eq_cases s.slots hA
          (execBucket (s.slots.getD s.curSlot [])) [] q.toNat with
          ⟨hqe, hbkt⟩ | ⟨hne, hbkt⟩
        · rw [hbkt]
          rw [bucketCount_execBucket]
          have hsplit := bucketCount_cycle_split (s.slots.getD q.toNat []) k
          have hzero : (s.slots.getD q.toNat []).countP
              (fun el => el.key == k && !decide (0 < el.cycle)) = 0 := by
            rw [hqe]
            exact countP_fired_zero_of_any_false hfa
          rw [hqe] at hsplit hzero hcnt
          omega
        · rw [hbkt]
          exact hcnt
  · intro k hk i
    rw [hmap] at hk
    cases hfa : (firedTasks (s.slots.getD s.curSlot [])).any (fun el => el.key == k) with
    | true =>
      obtain ⟨f, hf, hfk⟩ := List.any_eq_true.1 hfa
      have hfk' : f.key = k := by simpa using hfk
      have hfb : f ∈ s.slots.getD s.curSlot [] := List.mem_of_mem_filter hf
      have hBf := hB s.curSlot f hfb
      rw [hfk'] at hBf
      have hmapk : s.taskMap k = some ((s.curSlot : Int)) := hBf.2
      rw [hslots]
      rcases getD_set_eq_cases s.slots hA
        (execBucket (s.slots.getD s.curSlot [])) [] i with ⟨rfl, hbkt⟩ | ⟨hne, hbkt⟩
      · rw [hbkt, bucketCount_execBucket]
        have hsplit := bucketCount_cycle_split (s.slots.getD s.curSlot []) k
        have hone : bucketCount (s.slots.getD s.curSlot []) k = 1 := hcnt_cur k hmapk
        have hfired_pos : 0 < (s.slots.getD s.curSlot []).countP
            (fun el => el.key == k && !decide (0 < el.cycle)) := by
          apply List.countP_pos_iff.2
          refine ⟨f, hfb, ?_⟩
          have hfc := (List.mem_filter.1 hf).2
          simp only [Bool.and_eq_true]
          exact ⟨by simp [hfk'], hfc⟩
        omega
      · rw [hbkt]
        apply inv_bucket_unique ⟨hA, hB, hC, hD⟩ hmapk i
        simpa using hne
    | false =>
      rw [hfa] at hk
      simp only [Bool.false_eq_true, if_false] at hk
      rw [hslots]
      rcases getD_set_eq_cases s.slots hA
        (execBucket (s.slots.getD s.curSlot [])) [] i with ⟨rfl, hbkt⟩ | ⟨hne, hbkt⟩
      · rw [hbkt, bucketCount_execBucket]
        have hzero := hD k hk s.curSlot
        rw [bucketCount_cycle_split] at hzero
        omega
      · rw [hbkt]
        exact hD k hk i

/-- C8: the three internal wheel operations of the control loop —
adding a task, removing a task, and processing a tick — each preserve
the invariant Inv: every active key appears in exactly one slot
bucket, exactly once overall, the key index has exactly that one
entry for it, and the entry names the bucket holding the key's
element. -/
theorem C8_invariant_preservation (s : TimeWheelState) (hInv : Inv s) :
    (∀ t s', addTask s t = some s' → Inv s') ∧
    (∀ key s', removeTask s key = some s' → Inv s') ∧
    Inv (tick s).1 :=
  ⟨fun _ _ h => addTask_preserves_inv hInv h,
   fun _ _ h => removeTask_preserves_inv hInv h,
   tick_preserves_inv hInv⟩

/-- Witness for C8: a fresh wheel satisfies the invariant and keeps it
after a tick. -/
theorem C8_invariant_preservation_witness : Inv (tick (NewTimeWheel 10 1)).1 :=
  (C8_invariant_preservation (NewTimeWheel 10 1) (inv_newTimeWheel 10 1)).2.2

lemma no_fire_of_alive {s : TimeWheelState} (hInv : Inv s) {el : TaskElement}
    (hel : el ∈ s.slots.getD s.curSlot []) (hcyc : 0 < el.cycle) :
    (firedTasks (s.slots.getD s.curSlot [])).any (fun f => f.key == el.key) = false := by
  obtain ⟨hA, hB, hC, hD⟩ := hInv
  rw [List.any_eq_false]
  intro f hf hfk
  have hfk' : f.key = el.key := by simpa using hfk
  have hfb : f ∈ s.slots.getD s.curSlot [] := List.mem_of_mem_filter hf
  have hone : bucketCount (s.slots.getD s.curSlot []) el.key = 1 := by
    have hmapel := (hB s.curSlot el hel).2
    have := (hC el.key _ hmapel).2.2
    simpa using this
  have hfeq : f = el := by
    apply countP_eq_one_unique _ hone hfb _ hel _
    · simp [hfk']
    · simp
  have hfc := (List.mem_filter.1 hf).2
  rw [hfeq] at hfc
  simp [hcyc] at hfc

/-- C3 counterexample: on a fresh 10-slot wheel with interval 1 and
cursor 0, AddTask with delay -10 succeeds — Go's truncating remainder
gives pos = (0 + (-10)) tmod 10 = 0, in range, no panic — and stores
cycle = -1 at slot 0.  The next tick launches that task and deletes
its index entry although its cycle is -1, not 0, while the bucket
holds no cycle-0 task at all: a tick does not fire only the cycle == 0
tasks. -/
theorem C3_fired_counterexample :
    ((AddTask (NewTimeWheel 10 1) "k" 7 (-10)).getD
        (NewTimeWheel 10 1)).slots.getD 0 [] =
      [{ task := 7, pos := 0, cycle := -1, key := "k" }] ∧
    (tick ((AddTask (NewTimeWheel 10 1) "k" 7 (-10)).getD (NewTimeWheel 10 1))).2 =
      [{ task := 7, pos := 0, cycle := -1, key := "k" }] ∧
    (((AddTask (NewTimeWheel 10 1) "k" 7 (-10)).getD
        (NewTimeWheel 10 1)).slots.getD 0 []).filter (fun el => el.cycle == 0) = [] ∧
    (tick ((AddTask (NewTimeWheel 10 1) "k" 7 (-10)).getD
        (NewTimeWheel 10 1))).1.taskMap "k" = none := by
  refine ⟨by decide, by decide, by decide, by decide⟩

/-- C3 amended: a tick processes exactly the bucket at the cursor:
survivors are the positive-cycle tasks, decremented in place, which
also keep their index entries; the fired tasks are exactly those with
cycle ≤ 0 — not only cycle == 0, since negative cycles are reachable
through negative delays (see the counterexample) and the scan fires
them too — each removed from the key index; every other slot and
every other index entry is unchanged; and the cursor advances by one
modulo the slot count.  The hypothesis is the wheel invariant. -/
theorem C3_tick_semantics (s : TimeWheelState) (hInv : Inv s) :
    (tick s).1.slots.getD s.curSlot [] =
      (s.slots.getD s.curSlot []).filterMap
        (fun el => if 0 < el.cycle then some { el with cycle := el.cycle - 1 } else none) ∧
    (∀ el ∈ s.slots.getD s.curSlot [], 0 < el.cycle →
      { el with cycle := el.cycle - 1 } ∈ (tick s).1.slots.getD s.curSlot [] ∧
        (tick s).1.taskMap el.key = s.taskMap el.key) ∧
    (tick s).2 = (s.slots.getD s.curSlot []).filter (fun el => decide (el.cycle ≤ 0)) ∧
    (∀ el ∈ (tick s).2, (tick s).1.taskMap el.key = none) ∧
    (∀ j : Nat, j ≠ s.curSlot → (tick s).1.slots.getD j [] = s.slots.getD j []) ∧
    (∀ k, (∀ el ∈ (tick s).2, el.key ≠ k) → (tick s).1.taskMap k = s.taskMap k) ∧
    (tick s).1.curSlot = (s.curSlot + 1) % s.slots.length := by
  obtain ⟨hslots, hmap, hcur, hfired⟩ := tick_components s
  have hA := hInv.1
  have hbkteq : (tick s).1.slots.getD s.curSlot [] =
      execBucket (s.slots.getD s.curSlot []) := by
    rw [hslots]
    exact getD_set_self _ _ hA
  refine ⟨hbkteq, ?_, ?_, ?_, ?_, ?_, hcur⟩
  · intro el hel hc
    constructor
    · rw [hbkteq]
      apply List.mem_filterMap.2
      exact ⟨el, hel, by rw [if_pos hc]⟩
    · rw [hmap]
      have hnf := no_fire_of_alive hInv hel hc
      simp only [hnf, Bool.false_eq_true, if_false]
  · rw [hfired]
    unfold firedTasks
    apply List.filter_congr
    intro el hel
    by_cases hc : 0 < el.cycle
    · have : ¬(el.cycle ≤ 0) := by omega
      simp [hc, this]
    · have : el.cycle ≤ 0 := by omega
      simp [hc, this]
  · intro el hel
    rw [hfired] at hel
    rw [hmap]
    have hany : (firedTasks (s.slots.getD s.curSlot [])).any
        (fun f => f.key == el.key) = true :=
      List.any_eq_true.2 ⟨el, hel, by simp⟩
    simp only [hany, if_true]
  · intro j hj
    rw [hslots]
    exact getD_set_ne _ _ (fun hc => hj hc.symm)
  · intro k hnok
    rw [hmap]
    have hany : (firedTasks (s.slots.getD s.curSlot [])).any
        (fun f => f.key == k) = false := by
      rw [List.any_eq_false]
      intro f hf hfk
      have : f.key = k := by simpa using hfk
      exact hnok f (by rw [hfired]; exact hf) this
    simp only [hany, Bool.false_eq_true, if_false]

/-- Witness for C3 amended at a fresh wheel (the invariant holds):
the cursor advances from 0 to 1 mod 10. -/
theorem C3_tick_semantics_witness :
    (tick (NewTimeWheel 10 1)).1.curSlot =
      ((NewTimeWheel 10 1).curSlot + 1) % (NewTimeWheel 10 1).slots.length :=
  (C3_tick_semantics (NewTimeWheel 10 1) (inv_newTimeWheel 10 1)).2.2.2.2.2.2

lemma tick_key_task {K : String} {tid : Nat} (s : TimeWheelState)
    (hP : ∀ i : Nat, ∀ el ∈ s.slots.getD i [], el.key = K → el.task = tid) :
    (∀ i : Nat, ∀ el ∈ (tick s).1.slots.getD i [], el.key = K → el.task = tid) ∧
    (∀ el ∈ (tick s).2, el.key = K → el.task = tid) := by
  obtain ⟨hslots, -, -, hfired⟩ := tick_components s
  constructor
  · intro i el hel hkey
    rw [hslots] at hel
    rcases getD_set_cases s.slots s.curSlot
      (execBucket (s.slots.getD s.curSlot [])) [] i with hbkt | hbkt
    · rw [hbkt] at hel
      obtain ⟨el0, hel0, hif⟩ := List.mem_filterMap.1 hel
      by_cases hc : 0 < el0.cycle
      · rw [if_pos hc] at hif
        injection hif with hif
        have hk0 : el0.key = K := by rw [← hkey, ← hif]
        have := hP s.curSlot el0 hel0 hk0
        rw [← hif]
        exact this
      · rw [if_neg hc] at hif
        cases hif
    · rw [hbkt] at hel
      exact hP i el hel hkey
  · intro el hel hkey
    rw [hfired] at hel
    exact hP s.curSlot el (List.mem_of_mem_filter hel) hkey

lemma ticks_key_task {K : String} {tid : Nat} :
    ∀ (n : Nat) (s : TimeWheelState),
      (∀ i : Nat, ∀ el ∈ s.slots.getD i [], el.key = K → el.task = tid) →
      ∀ i : Nat, ∀ el ∈ (ticks n s).slots.getD i [], el.key = K → el.task = tid := by
  intro n
  induction n with
  | zero => intro s hP; exact hP
  | succ m ih =>
    intro s hP
    exact ih (tick s).1 (tick_key_task s hP).1

/-- C2: registering a second task under an existing key removes the
first registration from its slot and from the key index: afterwards
the index maps the key to the new element's slot, that element is in
its bucket, it is the only element carrying the key anywhere in the
wheel, and under any number of subsequent ticks the first registration
is never among the fired tasks. -/
theorem C2_replace_semantics (s : TimeWheelState) (el1 el2 : TaskElement)
    (hInv : Inv s) (hk : el1.key = el2.key) (htask : el1.task ≠ el2.task)
    (s2 : TimeWheelState)
    (h : (addTask s el1).bind (fun s1 => addTask s1 el2) = some s2) :
    s2.taskMap el2.key = some el2.pos ∧
    el2 ∈ s2.slots.getD el2.pos.toNat [] ∧
    (∀ i : Nat, ∀ el ∈ s2.slots.getD i [], el.key = el2.key → el = el2) ∧
    (∀ n : Nat, el1 ∉ (tick (ticks n s2)).2) := by
  have hbind : ∃ s1, addTask s el1 = some s1 ∧ addTask s1 el2 = some s2 := by
    cases h1 : addTask s el1 with
    | none => rw [h1] at h; simp at h
    | some s1 => rw [h1] at h; exact ⟨s1, rfl, h⟩
  obtain ⟨s1, h1, h2⟩ := hbind
  have hInv1 : Inv s1 := addTask_preserves_inv hInv h1
  have hInv2 : Inv s2 := addTask_preserves_inv hInv1 h2
  obtain ⟨hp0, hplen, sm, heqm, hs2eq⟩ := addTask_some_elim h2
  obtain ⟨-, -, hlenm, -⟩ := addTask_mid_state heqm hInv1
  have hplenm : el2.pos.toNat < sm.slots.length := by rw [hlenm]; exact hplen
  have hmap2 : s2.taskMap el2.key = some el2.pos := by
    rw [hs2eq]
    dsimp only
    rw [if_pos rfl]
  have hmem2 : el2 ∈ s2.slots.getD el2.pos.toNat [] := by
    rw [hs2eq]
    dsimp only
    rw [getD_set_self _ _ hplenm]
    exact List.mem_append.2 (Or.inr (by simp))
  have huniq : ∀ i : Nat, ∀ el ∈ s2.slots.getD i [], el.key = el2.key → el = el2 := by
    intro i el hel hkey
    have hB2 := hInv2.2.1 i el hel
    rw [hkey, hmap2] at hB2
    have hi : (i : Int) = el2.pos := by
      have := hB2.2
      rw [Option.some_inj] at this
      exact this.symm
    have hieq : i = el2.pos.toNat := by omega
    have hone : bucketCount (s2.slots.getD el2.pos.toNat []) el2.key = 1 := by
      have := (hInv2.2.2.1 el2.key el2.pos hmap2).2.2
      exact this
    subst hieq
    apply countP_eq_one_unique _ hone hel _ hmem2 _
    · simp [hkey]
    · simp
  refine ⟨hmap2, hmem2, huniq, ?_⟩
  intro n hel1
  have hbase : ∀ i : Nat, ∀ el ∈ s2.slots.getD i [], el.key = el2.key →
      el.task = el2.task := by
    intro i el hel hkey
    rw [huniq i el hel hkey]
  have hticks := ticks_key_task n s2 hbase
  have := (tick_key_task (ticks n s2) hticks).2 el1 hel1 hk
  exact htask this

/-- First registration used by the C2 witness. -/
def el1demo : TaskElement := { task := 1, pos := 2, cycle := 0, key := "a" }

/-- Second registration used by the C2 witness, same key. -/
def el2demo : TaskElement := { task := 2, pos := 3, cycle := 1, key := "a" }

/-- Witness for C2 on a fresh 10-slot wheel: after registering key "a"
twice, the index holds the second registration's slot 3. -/
theorem C2_replace_semantics_witness :
    (((addTask (NewTimeWheel 10 1) el1demo).bind
      (fun s1 => addTask s1 el2demo)).getD (NewTimeWheel 10 1)).taskMap "a" =
      some 3 := by
  cases hs : (addTask (NewTimeWheel 10 1) el1demo).bind
      (fun s1 => addTask s1 el2demo) with
  | none =>
    have hfalse : ((addTask (NewTimeWheel 10 1) el1demo).bind
        (fun s1 => addTask s1 el2demo)).isNone = false := by decide
    rw [hs] at hfalse
    simp at hfalse
  | some s2 =>
    have h := C2_replace_semantics (NewTimeWheel 10 1) el1demo el2demo
      (inv_newTimeWheel 10 1) rfl (by decide) s2 hs
    exact h.1

end Widgets
